import Mathlib

/-!
Shallow embedding of the short-link system (`istest.py`).

Strings are modelled as lists of characters, byte strings as lists of
`Fin 256`, and the two `DATETIME` columns as natural numbers (seconds);
`datetime.now()` is passed in explicitly at each call.  The gmssl
primitives (SM2/SM4) and MD5 are abstract functions bundled in a
`Crypto` context fixed at service construction, with the round-trip laws
the library provides stated separately; the random inputs of the source
(the fresh SM4 key, the uuid row id) are explicit parameters.
-/

namespace ShortLink

/-- Strings, modelled as lists of characters. -/
abbrev Str := List Char

/-- A byte. -/
abbrev Byte := Fin 256

/-- Byte strings. -/
abbrev Bytes := List Byte

/-- The lowercase hex digit for a value below 16 (48 = code of the zero
digit, 87 + 10 = code of the letter a). -/
def hexDigit (n : Nat) : Char :=
  if n < 10 then Char.ofNat (48 + n) else Char.ofNat (87 + n)

/-- Lowercase hex encoding of a byte string (Python `bytes.hex()`). -/
def toHex (bs : Bytes) : Str :=
  bs.flatMap fun b => [hexDigit (b.val / 16), hexDigit (b.val % 16)]

/-- Value of one hex character, case-insensitive, as accepted by Python
`bytes.fromhex`. -/
def hexVal (c : Char) : Option (Fin 16) :=
  if h : 48 ≤ c.toNat ∧ c.toNat ≤ 57 then some ⟨c.toNat - 48, by omega⟩
  else if h : 97 ≤ c.toNat ∧ c.toNat ≤ 102 then some ⟨c.toNat - 87, by omega⟩
  else if h : 65 ≤ c.toNat ∧ c.toNat ≤ 70 then some ⟨c.toNat - 55, by omega⟩
  else none

/-- Parse a hex string into bytes; fails on odd length or a non-hex
character (Python `bytes.fromhex`, whose failures surface as the
exceptions caught in `resolve_short_link`). -/
def fromHex : Str → Option Bytes
  | [] => some []
  | [_] => none
  | c₁ :: c₂ :: rest =>
    match hexVal c₁, hexVal c₂, fromHex rest with
    | some h, some l, some bs =>
      some (⟨h.val * 16 + l.val, by have := h.isLt; have := l.isLt; omega⟩ :: bs)
    | _, _, _ => none

/-- Python `str.split` with a single-character separator. -/
def splitChar (sep : Char) : Str → List Str
  | [] => [[]]
  | c :: rest =>
    if c = sep then [] :: splitChar sep rest
    else
      match splitChar sep rest with
      | [] => [[c]]
      | chunk :: chunks => (c :: chunk) :: chunks

/-- Python `str.split` with an arbitrary non-empty separator:
non-overlapping occurrences, scanned left to right.  Structurally
recursive on a fuel that bounds the remaining length, so that it
evaluates by `decide`; the fuel never runs out when it starts at the
length of the string. -/
def pySplitF (sep : Str) : Nat → Str → List Str
  | 0, _ => [[]]
  | fuel + 1, s =>
    match s with
    | [] => [[]]
    | c :: rest =>
      if sep ≠ [] ∧ sep.isPrefixOf (c :: rest) then
        [] :: pySplitF sep fuel ((c :: rest).drop sep.length)
      else
        match pySplitF sep fuel rest with
        | [] => [[c]]
        | chunk :: chunks => (c :: chunk) :: chunks

/-- Python `str.split` with an arbitrary non-empty separator. -/
def pySplit (sep : Str) (s : Str) : List Str := pySplitF sep s.length s

/-- The decimal digit character of a value below 10. -/
def digitChar (n : Nat) : Char := Char.ofNat (48 + n)

/-- Decimal digits of a natural number, structurally recursive on a fuel
bounding the number of digits. -/
def natToStrF : Nat → Nat → Str
  | 0, _ => []
  | fuel + 1, n =>
    if n < 10 then [digitChar n]
    else natToStrF fuel (n / 10) ++ [digitChar (n % 10)]

/-- Decimal rendering of a natural number.  This stands in for the
`strftime`-formatted timestamp string of the source; the development only
uses that a rendered timestamp consists of digits, punctuation and
spaces, never of letters. -/
def natToStr (n : Nat) : Str := natToStrF (n + 1) n

/-- Lexicographic string comparison by code point (Python `sorted` on
`str`). -/
def strLe : Str → Str → Bool
  | [], _ => true
  | _ :: _, [] => false
  | a :: as, b :: bs =>
    if a < b then true
    else if b < a then false
    else strLe as bs

/-- ASCII lowercasing, the only case folding the default SQLite `LIKE`
performs. -/
def asciiLower (c : Char) : Char :=
  if 65 ≤ c.toNat ∧ c.toNat ≤ 90 then Char.ofNat (c.toNat + 32) else c

/-- One `LIKE` pattern character against one text character: an
underscore matches anything, any other character matches
ASCII-case-insensitively. -/
def likeCharMatch (p c : Char) : Bool :=
  (p == '_') || (asciiLower p == asciiLower c)

/-- SQLite default `LIKE` matching (no ESCAPE clause): a percent sign in
the pattern matches any sequence (the rest of the pattern must match
some suffix of the text), an underscore any single character, everything
else matches ASCII-case-insensitively. -/
def sqliteLike : Str → Str → Bool
  | [], t => t.isEmpty
  | p₀ :: p, t =>
    if p₀ = '%' then t.tails.any fun t' => sqliteLike p t'
    else
      match t with
      | [] => false
      | c :: t' => likeCharMatch p₀ c && sqliteLike p t'

/-- Abstract interface to the gmssl primitives as used by one
`ShortLinkSystem` instance: the SM2 key pair is generated at construction
and fixed, so wrapping and unwrapping are unary; `pubKey`/`privKey` are
the hex strings of that pair as stored on every row.  MD5 is an abstract
digest on strings. -/
structure Crypto where
  sm2Enc : Bytes → Bytes
  sm2Dec : Bytes → Option Bytes
  sm4Enc : Bytes → Str → Bytes
  sm4Dec : Bytes → Bytes → Option Str
  md5 : Str → Str
  pubKey : Str
  privKey : Str

/-- The round-trip laws the gmssl library provides for the instance key
pair. -/
structure Crypto.Lawful (C : Crypto) : Prop where
  sm2_roundtrip : ∀ b, C.sm2Dec (C.sm2Enc b) = some b
  sm4_roundtrip : ∀ k s, C.sm4Dec k (C.sm4Enc k s) = some s

/-- First value bound to a key in an association list (Python dict
lookup; keys are unique in every use in the source). -/
def assocGet (params : List (Str × Str)) (k : Str) : Str :=
  match params.find? (fun p => p.1 == k) with
  | some p => p.2
  | none => []

/-- The lexicographic ordering on strings, as a relation. -/
def strLeP : Str → Str → Prop := fun a b => strLe a b = true

instance : DecidableRel strLeP := fun a b =>
  inferInstanceAs (Decidable (strLe a b = true))

/-- Sort a list of strings lexicographically (Python `sorted`). -/
def sortStrs (l : List Str) : List Str := List.insertionSort strLeP l

/-- Model of `ShortLinkSystem._generate_sign`: sort the field names
lexicographically, concatenate each name immediately followed by its
value with no separator, and hash the concatenation. -/
def generateSign (C : Crypto) (params : List (Str × Str)) : Str :=
  C.md5 (((sortStrs (params.map Prod.fst)).map
    (fun k => k ++ assocGet params k)).flatten)

/-- The field name `domain`. -/
def kDomain : Str := "domain".data

/-- The field name `content`. -/
def kContent : Str := "content".data

/-- The field name `createTime`. -/
def kCreateTime : Str := "createTime".data

/-- The field name `domainKey`. -/
def kDomainKey : Str := "domainKey".data

/-- The parameter dict passed to `_generate_sign`, in the insertion
order used by the source. -/
def signParams (domain content : Str) (createTime : Nat) (keyHex : Str) :
    List (Str × Str) :=
  [(kDomain, domain), (kContent, content),
   (kCreateTime, natToStr createTime), (kDomainKey, keyHex)]

/-- One row of the `any_short_chain` table. -/
structure LinkRecord where
  id : Str
  domain : Str
  content : Str
  short_code : Str
  useful_time : Nat
  status : Nat
  domainKey : Str
  publicKey : Str
  privateKey : Str
  sign : Str
  user_times : Nat
  oper_user : Option Str
  create_time : Nat
deriving DecidableEq

/-- The database table, in insertion (rowid) order. -/
structure SLState where
  records : List LinkRecord
deriving DecidableEq

/-- Domain extraction in `generate_short_link`:
`long_url.split('//')[1].split('/')[0]`, falling back to
`long_url.split('/')[0]` when indexing raises `IndexError`. -/
def extractDomain (url : Str) : Str :=
  match pySplit ("//".data) url with
  | _ :: second :: _ => (splitChar '/' second).headD []
  | _ => (splitChar '/' url).headD []

/-- The row that `generate_short_link` inserts.  Both `datetime.now()`
calls of the source are taken at the same instant `now`; the expiry is
`now` plus the validity window in hours. -/
def createdRecord (C : Crypto) (long_url : Str) (valid_hours : Nat)
    (user : Option Str) (now : Nat) (key : Bytes) (newId : Str) :
    LinkRecord :=
  { id := newId
    domain := extractDomain long_url
    content := toHex (C.sm4Enc key long_url)
    short_code := toHex (C.sm2Enc key)
    useful_time := now + 3600 * valid_hours
    status := 1
    domainKey := toHex key
    publicKey := C.pubKey
    privateKey := C.privKey
    sign := generateSign C
      (signParams (extractDomain long_url) long_url now (toHex key))
    user_times := 0
    oper_user := user
    create_time := now }

/-- Model of `ShortLinkSystem.generate_short_link`: insert the new row and return
the short link `domain ++ slash ++ first 8 hex chars of the wrapped
key`. -/
def generate_short_link (C : Crypto) (st : SLState) (long_url : Str)
    (valid_hours : Nat) (user : Option Str) (now : Nat) (key : Bytes)
    (newId : Str) : SLState × Str :=
  let r := createdRecord C long_url valid_hours user now key newId
  (⟨st.records ++ [r]⟩, r.domain ++ '/' :: (toHex (C.sm2Enc key)).take 8)

/-- The errors `resolve_short_link` raises, matching the messages in
the source:
malformed = the invalid-format ValueError, notFound = the missing-link
ValueError, expired = the expiry ValueError, sm2Fail / sm4Fail = the two
decryption ValueErrors, badSign = the signature ValueError. -/
inductive ResolveError where
  | malformed
  | notFound
  | expired
  | sm2Fail
  | sm4Fail
  | badSign
deriving DecidableEq

/-- The WHERE clause of the lookup in `resolve_short_link`:
`domain=? AND short_code LIKE ?` with the pattern
`f"{short_code}%"`. -/
def rowMatches (domain short_code : Str) (r : LinkRecord) : Bool :=
  r.domain == domain && sqliteLike (short_code ++ ['%']) r.short_code

/-- The part of `resolve_short_link` after the row has been fetched:
expiry check, key unwrap, content decryption, signature check.  The
`bytes.fromhex` calls sit inside the try blocks of the source, so their
failures surface as the respective decryption errors. -/
def resolveRecord (C : Crypto) (r : LinkRecord) (now : Nat) :
    Except ResolveError Str :=
  if now > r.useful_time then .error .expired
  else
    match fromHex r.short_code with
    | none => .error .sm2Fail
    | some wrapped =>
      match C.sm2Dec wrapped with
      | none => .error .sm2Fail
      | some key =>
        match fromHex r.content with
        | none => .error .sm4Fail
        | some encContent =>
          match C.sm4Dec key encContent with
          | none => .error .sm4Fail
          | some content =>
            if generateSign C
                 (signParams r.domain content r.create_time (toHex key))
               == r.sign
            then .ok content
            else .error .badSign

/-- Model of `ShortLinkSystem.resolve_short_link`.  The store is returned
unchanged: the method only executes a SELECT.  The address is split with
`short_url.split('/')` and unpacked into exactly two parts; `fetchone`
on the unordered SELECT is the first matching row in rowid order. -/
def resolve_short_link (C : Crypto) (st : SLState) (short_url : Str)
    (now : Nat) : SLState × Except ResolveError Str :=
  (st,
    match splitChar '/' short_url with
    | [domain, short_code] =>
      match st.records.find? (fun r => rowMatches domain short_code r) with
      | none => .error .notFound
      | some r => resolveRecord C r now
    | _ => .error .malformed)

/-- The value/error component of `resolve_short_link`. -/
def resolveResult (C : Crypto) (st : SLState) (short_url : Str)
    (now : Nat) : Except ResolveError Str :=
  (resolve_short_link C st short_url now).2

instance {ε α : Type} [DecidableEq ε] [DecidableEq α] :
    DecidableEq (Except ε α) := fun x y =>
  match x, y with
  | .ok a, .ok b =>
    if h : a = b then isTrue (h ▸ rfl)
    else isFalse (fun hc => h (Except.ok.inj hc))
  | .error a, .error b =>
    if h : a = b then isTrue (h ▸ rfl)
    else isFalse (fun hc => h (Except.error.inj hc))
  | .ok _, .error _ => isFalse (fun hc => Except.noConfusion hc)
  | .error _, .ok _ => isFalse (fun hc => Except.noConfusion hc)

/-! A concrete lawful crypto context

Used to evaluate the operations on closed inputs.  It satisfies exactly
the interface laws the abstract context is assumed to have: both ciphers
round-trip and the digest is injective. -/

/-- Four-byte big-endian encoding of the code point of one character. -/
def encodeChar (c : Char) : Bytes :=
  [⟨c.toNat / 16777216 % 256, by omega⟩, ⟨c.toNat / 65536 % 256, by omega⟩,
   ⟨c.toNat / 256 % 256, by omega⟩, ⟨c.toNat % 256, by omega⟩]

/-- Encode a string four bytes per character. -/
def encodeStr (s : Str) : Bytes := s.flatMap encodeChar

/-- Decode a byte string four bytes per character. -/
def decodeBytes : Bytes → Option Str
  | [] => some []
  | b₁ :: b₂ :: b₃ :: b₄ :: rest =>
    match decodeBytes rest with
    | some s =>
      some (Char.ofNat
        (b₁.val * 16777216 + b₂.val * 65536 + b₃.val * 256 + b₄.val) :: s)
    | none => none
  | _ => none

/-- A lawful concrete crypto context: both ciphers are plain reversible
encodings and the digest is the identity. -/
def idCrypto : Crypto :=
  { sm2Enc := id
    sm2Dec := some
    sm4Enc := fun _ s => encodeStr s
    sm4Dec := fun _ b => decodeBytes b
    md5 := id
    pubKey := "pk".data
    privKey := "sk".data }

/-- Recognizer for the characters `toHex` can emit: decimal digits and
the lowercase letters a…f. -/
def isLowerHex (c : Char) : Bool :=
  (48 ≤ c.toNat && c.toNat ≤ 57) || (97 ≤ c.toNat && c.toNat ≤ 102)

/-- The canonical concatenation `_generate_sign` hashes for the field
set used in the system: sorted field order is content, createTime,
domain, domainKey, each name immediately followed by its value. -/
def canonString (d c : Str) (t : Nat) (kh : Str) : Str :=
  kContent ++ c ++ kCreateTime ++ natToStr t ++ kDomain ++ d ++ kDomainKey ++ kh

/-- The middle part of the canonical string that separates the content
value from the key-hex value. -/
def canonMid (d : Str) (t : Nat) : Str :=
  kCreateTime ++ natToStr t ++ kDomain ++ d ++ kDomainKey

/-- Agreement on every column except domainKey, publicKey and
privateKey. -/
def sameVisible (r₁ r₂ : LinkRecord) : Prop :=
  r₁.id = r₂.id ∧ r₁.domain = r₂.domain ∧ r₁.content = r₂.content ∧
  r₁.short_code = r₂.short_code ∧ r₁.useful_time = r₂.useful_time ∧
  r₁.status = r₂.status ∧ r₁.sign = r₂.sign ∧
  r₁.user_times = r₂.user_times ∧ r₁.oper_user = r₂.oper_user ∧
  r₁.create_time = r₂.create_time

/-! Definitions modelled from the claim wording

These two definitions follow the words of the claims being checked, to
be compared with `resolve_short_link` which is translated from the
source; they differ from it exactly where the claims fail. -/

/-- Modelled from the claim wording of C3: split the short address on
the FIRST separator only (Python would be `split('/', 1)`), then run the
identical pipeline. -/
def resolveFirstSplit (C : Crypto) (st : SLState) (short_url : Str)
    (now : Nat) : Except ResolveError Str :=
  let pre := short_url.takeWhile (fun c => c != '/')
  let post := short_url.dropWhile (fun c => c != '/')
  match post with
  | [] => .error .malformed
  | _ :: code =>
    match st.records.find? (fun r => rowMatches pre code r) with
    | none => .error .notFound
    | some r => resolveRecord C r now

/-- Modelled from the claim wording of C4: candidate rows selected by
exact domain equality and literal, case-sensitive prefix match of the
given code against the stored short code. -/
def rowMatchesLiteral (domain short_code : Str) (r : LinkRecord) : Bool :=
  r.domain == domain && short_code.isPrefixOf r.short_code

/-- Modelled from the claim wording of C4: `resolve_short_link` with the
lookup replaced by the literal-prefix lookup. -/
def resolveLiteralLookup (C : Crypto) (st : SLState) (short_url : Str)
    (now : Nat) : Except ResolveError Str :=
  match splitChar '/' short_url with
  | [domain, short_code] =>
    match st.records.find? (fun r => rowMatchesLiteral domain short_code r) with
    | none => .error .notFound
    | some r => resolveRecord C r now
  | _ => .error .malformed

/-- One-field mutations of a stored row considered by the tamper claim:
the row agrees with the original except in exactly one of the columns
content, short_code (the wrapped key), domainKey (the plaintext key
copy), create_time, or sign. -/
def IsTamper (r₀ r' : LinkRecord) : Prop :=
  (∃ v, r' = {r₀ with content := v}) ∨
  (∃ v, r' = {r₀ with short_code := v}) ∨
  (∃ v, r' = {r₀ with domainKey := v}) ∨
  (∃ n, r' = {r₀ with create_time := n}) ∨
  (∃ v, r' = {r₀ with sign := v})

/-! Concrete values used by the closed witnesses -/

/-- A concrete long URL; its extracted domain is the single letter a. -/
def sW : Str := "http://a/x".data

/-- A concrete one-byte SM4 key, hex ab. -/
def keyW : Bytes := [⟨171, by omega⟩]

/-- A concrete row id. -/
def idW : Str := "id0".data

/-- The row created for `sW` at time 0 with a one-hour window. -/
def recW : LinkRecord := createdRecord idCrypto sW 1 none 0 keyW idW

/-- The short link returned for `sW`: the string a/ab. -/
def linkW : Str := (generate_short_link idCrypto ⟨[]⟩ sW 1 none 0 keyW idW).2

/-- The created row with its stored signature cleared. -/
def recBadSign : LinkRecord := {recW with sign := []}

theorem decodeBytes_encodeChar (c : Char) (bs : Bytes) :
    decodeBytes (encodeChar c ++ bs) =
      match decodeBytes bs with
      | some s => some (c :: s)
      | none => none := by
  have hlt : c.toNat < 4294967296 := UInt32.toNat_lt_size c.val
  have harith :
      c.toNat / 16777216 % 256 * 16777216 + c.toNat / 65536 % 256 * 65536 +
        c.toNat / 256 % 256 * 256 + c.toNat % 256 = c.toNat := by omega
  simp only [encodeChar, List.cons_append, List.nil_append, decodeBytes,
    harith, Char.ofNat_toNat]
  rfl

theorem decodeBytes_encodeStr (s : Str) : decodeBytes (encodeStr s) = some s := by
  induction s with
  | nil => rfl
  | cons c rest ih =>
    simp only [encodeStr, List.flatMap_cons] at *
    rw [decodeBytes_encodeChar, ih]

theorem idCrypto_lawful : idCrypto.Lawful :=
  ⟨fun _ => rfl, fun _ s => decodeBytes_encodeStr s⟩

theorem idCrypto_md5_injective : Function.Injective idCrypto.md5 :=
  fun _ _ h => h

/-! Hex encoding lemmas -/

theorem hexDigit_isLowerHex {n : Nat} (h : n < 16) :
    isLowerHex (hexDigit n) = true := by
  interval_cases n <;> decide

theorem hexVal_hexDigit {n : Nat} (h : n < 16) :
    hexVal (hexDigit n) = some ⟨n, h⟩ := by
  interval_cases n <;> rfl

theorem mem_toHex_isLowerHex {c : Char} {bs : Bytes} (h : c ∈ toHex bs) :
    isLowerHex c = true := by
  simp only [toHex, List.mem_flatMap, List.mem_cons, List.not_mem_nil,
    or_false] at h
  obtain ⟨b, -, hc⟩ := h
  have h1 : b.val / 16 < 16 := by have := b.isLt; omega
  have h2 : b.val % 16 < 16 := by omega
  rcases hc with rfl | rfl
  · exact hexDigit_isLowerHex h1
  · exact hexDigit_isLowerHex h2

theorem slash_not_mem_toHex {bs : Bytes} : '/' ∉ toHex bs := by
  intro h
  have := mem_toHex_isLowerHex h
  simp [isLowerHex] at this

theorem fromHex_toHex (bs : Bytes) : fromHex (toHex bs) = some bs := by
  induction bs with
  | nil => rfl
  | cons b rest ih =>
    have h1 : b.val / 16 < 16 := by have := b.isLt; omega
    have h2 : b.val % 16 < 16 := by omega
    have hb : (⟨b.val / 16, h1⟩ : Fin 16).val * 16 + (⟨b.val % 16, h2⟩ : Fin 16).val
        = b.val := by simp; omega
    simp only [toHex, List.flatMap_cons, List.cons_append, List.nil_append]
    simp only [toHex] at ih
    simp only [fromHex, hexVal_hexDigit h1, hexVal_hexDigit h2, ih]
    congr 1
    simp only [List.cons.injEq, and_true]
    exact Fin.ext (by simpa using hb)

theorem length_toHex (bs : Bytes) : (toHex bs).length = 2 * bs.length := by
  induction bs with
  | nil => rfl
  | cons b rest ih =>
    simp only [toHex, List.flatMap_cons] at *
    simp [ih]
    omega

/-! Python split lemmas -/

theorem splitChar_ne_nil (sep : Char) (s : Str) : splitChar sep s ≠ [] := by
  induction s with
  | nil => simp [splitChar]
  | cons c rest ih =>
    simp only [splitChar]
    split
    · simp
    · split <;> simp

theorem not_mem_of_mem_splitChar {sep : Char} {s chunk : Str}
    (h : chunk ∈ splitChar sep s) : sep ∉ chunk := by
  induction s generalizing chunk with
  | nil =>
    simp [splitChar] at h
    simp [h]
  | cons c rest ih =>
    simp only [splitChar] at h
    split at h
    · rcases List.mem_cons.mp h with h | h
      · simp [h]
      · exact ih h
    · rename_i hc
      rcases hsp : splitChar sep rest with - | ⟨chunk₀, chunks⟩
      · exact absurd hsp (splitChar_ne_nil sep rest)
      · rw [hsp] at h
        rcases List.mem_cons.mp h with h | h
        · subst h
          intro hmem
          rcases List.mem_cons.mp hmem with h | h
          · exact hc h.symm
          · exact ih (hsp ▸ List.mem_cons_self chunk₀ chunks) h
        · exact ih (hsp ▸ List.mem_cons_of_mem chunk₀ h)

theorem splitChar_of_not_mem {sep : Char} {s : Str} (h : sep ∉ s) :
    splitChar sep s = [s] := by
  induction s with
  | nil => rfl
  | cons c rest ih =>
    simp only [List.mem_cons, not_or] at h
    have hcs : ¬ c = sep := fun hc => h.1 hc.symm
    simp only [splitChar, if_neg hcs, ih h.2]

theorem splitChar_append {sep : Char} {d rest : Str} (h : sep ∉ d) :
    splitChar sep (d ++ sep :: rest) = d :: splitChar sep rest := by
  induction d with
  | nil => simp [splitChar]
  | cons c tl ih =>
    simp only [List.mem_cons, not_or] at h
    have hcs : ¬ c = sep := fun hc => h.1 hc.symm
    simp only [List.cons_append, splitChar, if_neg hcs, List.append_eq,
      ih h.2]

theorem length_splitChar (sep : Char) (s : Str) :
    (splitChar sep s).length = s.count sep + 1 := by
  induction s with
  | nil => simp [splitChar]
  | cons c rest ih =>
    simp only [splitChar]
    split
    · rename_i hc
      simp [List.count_cons, hc, ih]
    · rename_i hc
      rcases hsp : splitChar sep rest with - | ⟨chunk₀, chunks⟩
      · exact absurd hsp (splitChar_ne_nil sep rest)
      · rw [hsp] at ih
        simp only [List.count_cons]
        simp only [List.length_cons] at *
        have : (c == sep) = false := by simp [hc]
        simp [this, ih]

theorem not_mem_headD_splitChar (sep : Char) (s : Str) :
    sep ∉ (splitChar sep s).headD [] := by
  rcases h : splitChar sep s with - | ⟨c, cs⟩
  · exact absurd h (splitChar_ne_nil sep s)
  · simp only [List.headD_cons]
    exact not_mem_of_mem_splitChar (h ▸ List.mem_cons_self c cs)

theorem slash_not_mem_extractDomain (url : Str) : '/' ∉ extractDomain url := by
  unfold extractDomain
  split
  · exact not_mem_headD_splitChar '/' _
  · exact not_mem_headD_splitChar '/' _

/-! LIKE lemmas -/

theorem likeCharMatch_refl (c : Char) : likeCharMatch c c = true := by
  simp [likeCharMatch]

theorem nil_mem_tails (t : Str) : [] ∈ t.tails := by
  induction t with
  | nil => simp [List.tails]
  | cons c t ih => simp [List.tails, ih]

theorem self_mem_tails (t : Str) : t ∈ t.tails := by
  cases t <;> simp [List.tails]

theorem sqliteLike_percent (t : Str) : sqliteLike ['%'] t = true := by
  have h : sqliteLike ['%'] t = t.tails.any fun t' => sqliteLike [] t' := by
    simp [sqliteLike]
  rw [h, List.any_eq_true]
  exact ⟨[], nil_mem_tails t, rfl⟩

theorem sqliteLike_self_append_percent (p t : Str) :
    sqliteLike (p ++ ['%']) (p ++ t) = true := by
  induction p generalizing t with
  | nil => simpa using sqliteLike_percent t
  | cons c p ih =>
    by_cases hc : c = '%'
    · subst hc
      have h : sqliteLike ('%' :: (p ++ ['%'])) ('%' :: (p ++ t))
          = ('%' :: (p ++ t)).tails.any fun t' => sqliteLike (p ++ ['%']) t' := by
        simp [sqliteLike]
      rw [List.cons_append, List.cons_append, h, List.any_eq_true]
      refine ⟨p ++ t, ?_, ih t⟩
      simp only [List.tails]
      exact List.mem_cons_of_mem _ (self_mem_tails (p ++ t))
    · simp only [List.cons_append, sqliteLike, if_neg hc, likeCharMatch_refl,
        Bool.true_and]
      exact ih t

/-! Lexicographic order lemmas -/

theorem strLe_total (a b : Str) : strLe a b = true ∨ strLe b a = true := by
  induction a generalizing b with
  | nil => left; rfl
  | cons x as ih =>
    cases b with
    | nil => right; rfl
    | cons y bs =>
      rcases lt_trichotomy x y with h | h | h
      · left; simp [strLe, h]
      · subst h
        rcases ih bs with h | h
        · left; simp [strLe, h]
        · right; simp [strLe, h]
      · right; simp [strLe, h]

theorem strLe_trans {a b c : Str} (h₁ : strLe a b = true)
    (h₂ : strLe b c = true) : strLe a c = true := by
  induction a generalizing b c with
  | nil => rfl
  | cons x as ih =>
    cases b with
    | nil => simp [strLe] at h₁
    | cons y bs =>
      cases c with
      | nil => simp [strLe] at h₂
      | cons z cs =>
        rcases lt_trichotomy x y with hxy | hxy | hxy
        · rcases lt_trichotomy y z with hyz | hyz | hyz
          · simp [strLe, lt_trans hxy hyz]
          · subst hyz; simp [strLe, hxy]
          · simp [strLe, lt_asymm hyz, hyz] at h₂
        · subst hxy
          rcases lt_trichotomy x z with hyz | hyz | hyz
          · simp [strLe, hyz]
          · subst hyz
            simp only [strLe, lt_irrefl, if_false] at h₁ h₂ ⊢
            exact ih h₁ h₂
          · simp [strLe, lt_asymm hyz, hyz] at h₂
        · simp [strLe, lt_asymm hxy, hxy] at h₁

theorem strLe_antisymm {a b : Str} (h₁ : strLe a b = true)
    (h₂ : strLe b a = true) : a = b := by
  induction a generalizing b with
  | nil =>
    cases b with
    | nil => rfl
    | cons y bs => simp [strLe] at h₂
  | cons x as ih =>
    cases b with
    | nil => simp [strLe] at h₁
    | cons y bs =>
      rcases lt_trichotomy x y with hxy | hxy | hxy
      · simp [strLe, lt_asymm hxy, hxy] at h₂
      · subst hxy
        simp only [strLe, lt_irrefl, if_false] at h₁ h₂
        exact congrArg (x :: ·) (ih h₁ h₂)
      · simp [strLe, lt_asymm hxy, hxy] at h₁

/-! Association list lemmas -/

theorem pair_eq_of_nodup_keys {l : List (Str × Str)}
    (hnd : (l.map Prod.fst).Nodup) {p q : Str × Str}
    (hp : p ∈ l) (hq : q ∈ l) (hk : p.1 = q.1) : p = q := by
  induction l with
  | nil => cases hp
  | cons a tl ih =>
    simp only [List.map_cons, List.nodup_cons] at hnd
    rcases List.mem_cons.mp hp with rfl | hp'
    · rcases List.mem_cons.mp hq with rfl | hq'
      · rfl
      · exact absurd (hk ▸ List.mem_map_of_mem Prod.fst hq') hnd.1
    · rcases List.mem_cons.mp hq with rfl | hq'
      · exact absurd (hk ▸ List.mem_map_of_mem Prod.fst hp') hnd.1
      · exact ih hnd.2 hp' hq'

theorem assocGet_of_perm {l₁ l₂ : List (Str × Str)} (hp : l₁.Perm l₂)
    (hnd : (l₁.map Prod.fst).Nodup) (k : Str) :
    assocGet l₁ k = assocGet l₂ k := by
  rcases h₁ : l₁.find? (fun pr => pr.1 == k) with - | pa
  · rcases h₂ : l₂.find? (fun pr => pr.1 == k) with - | qa
    · simp [assocGet, h₁, h₂]
    · exact absurd (List.find?_some h₂)
        (List.find?_eq_none.mp h₁ qa
          (hp.symm.subset (List.mem_of_find?_eq_some h₂)))
  · have hpmem : pa ∈ l₁ := List.mem_of_find?_eq_some h₁
    have hppred := List.find?_some h₁
    rcases h₂ : l₂.find? (fun pr => pr.1 == k) with - | qa
    · exact absurd hppred (List.find?_eq_none.mp h₂ pa (hp.subset hpmem))
    · have hqmem : qa ∈ l₁ := hp.symm.subset (List.mem_of_find?_eq_some h₂)
      have hqpred := List.find?_some h₂
      have hpq : pa = qa := pair_eq_of_nodup_keys hnd hpmem hqmem
        (by rw [beq_iff_eq.mp hppred, beq_iff_eq.mp hqpred])
      simp [assocGet, h₁, h₂, hpq]

/-! The canonical signed string -/

theorem generateSign_signParams (C : Crypto) (d c : Str) (t : Nat) (kh : Str) :
    generateSign C (signParams d c t kh) = C.md5 (canonString d c t kh) := by
  have hs : sortStrs [kDomain, kContent, kCreateTime, kDomainKey]
      = [kContent, kCreateTime, kDomain, kDomainKey] := by decide
  have h₁ : assocGet (signParams d c t kh) kContent = c := rfl
  have h₂ : assocGet (signParams d c t kh) kCreateTime = natToStr t := rfl
  have h₃ : assocGet (signParams d c t kh) kDomain = d := rfl
  have h₄ : assocGet (signParams d c t kh) kDomainKey = kh := rfl
  have hkeys : (signParams d c t kh).map Prod.fst
      = [kDomain, kContent, kCreateTime, kDomainKey] := rfl
  unfold generateSign
  rw [hkeys, hs]
  simp only [List.map_cons, List.map_nil, h₁, h₂, h₃, h₄, List.flatten,
    canonString]
  simp [List.append_assoc]

theorem canonString_eq_mid (d c : Str) (t : Nat) (kh : Str) :
    canonString d c t kh = kContent ++ ((c ++ canonMid d t) ++ kh) := by
  simp [canonString, canonMid, List.append_assoc]

theorem canonMid_getLast? (d : Str) (t : Nat) :
    (canonMid d t).getLast? = some 'y' := by
  unfold canonMid
  rw [List.getLast?_append]
  rfl

/-! The sandwich cancellation lemma

If a string is decomposed twice as prefix ++ mid ++ suffix with the same
mid, the last character of mid outside the suffix alphabet, and both
suffixes inside that alphabet, then the decompositions coincide. -/

theorem sandwich_aux {S : Char → Bool} {w m h₁ h₂ : Str}
    (hm : ∃ x, m.getLast? = some x ∧ S x = false)
    (hh₁ : ∀ ch ∈ h₁, S ch = true)
    (heq : m ++ h₁ = w ++ m ++ h₂) : w = [] := by
  obtain ⟨x, hxl, hxS⟩ := hm
  have hxm : x ∈ m := List.mem_of_getLast?_eq_some hxl
  rw [List.append_assoc] at heq
  rcases List.append_eq_append_iff.mp heq with ⟨u, hw, hh⟩ | ⟨u, hmu, hh⟩
  · exfalso
    have hxh : x ∈ h₁ := by
      rw [hh]
      simp [hxm]
    rw [hh₁ x hxh] at hxS
    cases hxS
  · rcases List.append_eq_append_iff.mp hh with ⟨v, hu, hh'⟩ | ⟨v, hmv, hh'⟩
    · have hlen := congrArg List.length hmu
      rw [hu] at hlen
      simp only [List.length_append] at hlen
      have hw : w.length = 0 := by omega
      exact List.length_eq_zero.mp hw
    · rcases List.eq_nil_or_concat v with rfl | ⟨v', y, rfl⟩
      · rw [List.append_nil] at hmv
        rw [← hmv] at hmu
        have hlen := congrArg List.length hmu
        simp only [List.length_append] at hlen
        have hw : w.length = 0 := by omega
        exact List.length_eq_zero.mp hw
      · exfalso
        have hylast : m.getLast? = some y := by
          rw [hmv, List.concat_eq_append, ← List.append_assoc,
            List.getLast?_concat]
        have hyx : y = x := by
          rw [hylast] at hxl
          exact Option.some.inj hxl
        have hyh : y ∈ h₁ := by
          rw [hh', List.concat_eq_append]
          simp
        rw [hyx] at hyh
        rw [hh₁ x hyh] at hxS
        cases hxS

theorem sandwich {S : Char → Bool} {c₁ c₂ m h₁ h₂ : Str}
    (hm : ∃ x, m.getLast? = some x ∧ S x = false)
    (hh₁ : ∀ ch ∈ h₁, S ch = true)
    (hh₂ : ∀ ch ∈ h₂, S ch = true)
    (heq : c₁ ++ m ++ h₁ = c₂ ++ m ++ h₂) : c₁ = c₂ ∧ h₁ = h₂ := by
  have heq' : c₁ ++ (m ++ h₁) = c₂ ++ (m ++ h₂) := by
    simpa [List.append_assoc] using heq
  rcases List.append_eq_append_iff.mp heq' with ⟨w, hc₂, hrest⟩ | ⟨w, hc₁, hrest⟩
  · have hw : w = [] := sandwich_aux hm hh₁ (by rw [hrest, List.append_assoc])
    subst hw
    rw [List.append_nil] at hc₂
    subst hc₂
    simp only [List.nil_append] at hrest
    exact ⟨rfl, List.append_cancel_left hrest⟩
  · have hw : w = [] := sandwich_aux hm hh₂ (by rw [hrest, List.append_assoc])
    subst hw
    rw [List.append_nil] at hc₁
    subst hc₁
    simp only [List.nil_append] at hrest
    exact ⟨rfl, (List.append_cancel_left hrest).symm⟩

/-! The pipeline after creation -/

theorem slash_not_mem_code (C : Crypto) (key : Bytes) :
    '/' ∉ (toHex (C.sm2Enc key)).take 8 :=
  fun hmem => slash_not_mem_toHex (List.mem_of_mem_take hmem)

theorem splitChar_shortLink (C : Crypto) (s : Str) (key : Bytes) :
    splitChar '/' (extractDomain s ++ '/' :: (toHex (C.sm2Enc key)).take 8)
    = [extractDomain s, (toHex (C.sm2Enc key)).take 8] := by
  rw [splitChar_append (slash_not_mem_extractDomain s),
    splitChar_of_not_mem (slash_not_mem_code C key)]

theorem rowMatches_createdRecord (C : Crypto) (s : Str) (h : Nat)
    (u : Option Str) (now : Nat) (key : Bytes) (newId : Str) :
    rowMatches (extractDomain s) ((toHex (C.sm2Enc key)).take 8)
      (createdRecord C s h u now key newId) = true := by
  have hlike := sqliteLike_self_append_percent
    ((toHex (C.sm2Enc key)).take 8) ((toHex (C.sm2Enc key)).drop 8)
  rw [List.take_append_drop] at hlike
  simp [rowMatches, createdRecord, hlike]

theorem resolveRecord_createdRecord (C : Crypto) (hL : C.Lawful)
    (s : Str) (h : Nat) (u : Option Str) (now : Nat) (key : Bytes)
    (newId : Str) (now' : Nat) :
    resolveRecord C (createdRecord C s h u now key newId) now'
    = if now + 3600 * h < now' then .error .expired else .ok s := by
  unfold resolveRecord createdRecord
  simp only [fromHex_toHex, hL.sm2_roundtrip, hL.sm4_roundtrip,
    beq_self_eq_true, if_true, gt_iff_lt]

/-- The lookup shape of `resolve_short_link`: for a well-formed address
(one separator, none inside the two parts) the outcome is determined by
the first row whose domain is exactly the given domain and whose stored
short code matches the given code followed by a percent sign under
SQLite LIKE; with no such row it is the not-found error. -/
theorem resolveResult_eq_lookup (C : Crypto) (st : SLState) (now' : Nat)
    {d code : Str} (hd : '/' ∉ d) (hc : '/' ∉ code) :
    resolveResult C st (d ++ '/' :: code) now'
    = match st.records.find? (fun r => rowMatches d code r) with
      | none => .error .notFound
      | some r => resolveRecord C r now' := by
  unfold resolveResult resolve_short_link
  rw [splitChar_append hd, splitChar_of_not_mem hc]

theorem resolveResult_after_create (C : Crypto) (s : Str) (h : Nat)
    (u : Option Str) (now : Nat) (key : Bytes) (newId : Str) (now' : Nat) :
    resolveResult C (generate_short_link C ⟨[]⟩ s h u now key newId).1
      (generate_short_link C ⟨[]⟩ s h u now key newId).2 now'
    = resolveRecord C (createdRecord C s h u now key newId) now' := by
  unfold generate_short_link
  simp only []
  rw [show (createdRecord C s h u now key newId).domain = extractDomain s
    from rfl]
  rw [resolveResult_eq_lookup C _ now' (slash_not_mem_extractDomain s)
    (slash_not_mem_code C key)]
  simp only [List.nil_append, List.find?_singleton,
    rowMatches_createdRecord, if_true]

/-! Signing is determined by the sorted field set -/

theorem sortStrs_eq_of_perm {l₁ l₂ : List Str} (hp : l₁.Perm l₂) :
    sortStrs l₁ = sortStrs l₂ := by
  haveI : IsTotal Str strLeP := ⟨strLe_total⟩
  haveI : IsTrans Str strLeP := ⟨fun _ _ _ => strLe_trans⟩
  haveI : IsAntisymm Str strLeP := ⟨fun _ _ => strLe_antisymm⟩
  exact List.eq_of_perm_of_sorted
    ((List.perm_insertionSort strLeP l₁).trans
      (hp.trans (List.perm_insertionSort strLeP l₂).symm))
    (List.sorted_insertionSort strLeP l₁)
    (List.sorted_insertionSort strLeP l₂)

/-! Resolution ignores the key-material columns -/

theorem rowMatches_congr (d code : Str) {r₁ r₂ : LinkRecord}
    (hv : sameVisible r₁ r₂) :
    rowMatches d code r₁ = rowMatches d code r₂ := by
  unfold rowMatches
  rw [hv.2.1, hv.2.2.2.1]

theorem resolveRecord_congr (C : Crypto) (now : Nat) {r₁ r₂ : LinkRecord}
    (hv : sameVisible r₁ r₂) :
    resolveRecord C r₁ now = resolveRecord C r₂ now := by
  obtain ⟨-, h₂, h₃, h₄, h₅, -, h₇, -, -, h₁₀⟩ := hv
  unfold resolveRecord
  rw [h₂, h₃, h₄, h₅, h₇, h₁₀]

theorem lookup_congr (C : Crypto) (d code : Str) (now : Nat)
    {l₁ l₂ : List LinkRecord} (hv : List.Forall₂ sameVisible l₁ l₂) :
    (match l₁.find? (fun r => rowMatches d code r) with
     | none => (.error .notFound : Except ResolveError Str)
     | some r => resolveRecord C r now)
    = match l₂.find? (fun r => rowMatches d code r) with
      | none => .error .notFound
      | some r => resolveRecord C r now := by
  induction hv with
  | nil => rfl
  | cons hr htl ih =>
    rename_i a b as bs
    by_cases hm : rowMatches d code a = true
    · have hm₂ : rowMatches d code b = true := by
        rw [← rowMatches_congr d code hr]
        exact hm
      rw [List.find?_cons_of_pos _ hm, List.find?_cons_of_pos _ hm₂]
      exact resolveRecord_congr C now hr
    · have hm₂ : ¬ rowMatches d code b = true := by
        rw [← rowMatches_congr d code hr]
        exact hm
      rw [List.find?_cons_of_neg _ hm, List.find?_cons_of_neg _ hm₂]
      exact ih

/-! The malformed-address boundary -/

theorem resolveRecord_ne_malformed (C : Crypto) (r : LinkRecord)
    (now : Nat) : resolveRecord C r now ≠ .error .malformed := by
  unfold resolveRecord
  (repeat' split) <;> simp

/-! Success inversion for the post-lookup pipeline -/

theorem resolveRecord_ok_inversion {C : Crypto} {r : LinkRecord}
    {now : Nat} {t : Str} (h : resolveRecord C r now = .ok t) :
    ∃ w k b, fromHex r.short_code = some w ∧ C.sm2Dec w = some k ∧
      fromHex r.content = some b ∧ C.sm4Dec k b = some t ∧
      generateSign C (signParams r.domain t r.create_time (toHex k))
        = r.sign := by
  unfold resolveRecord at h
  split at h
  · exact absurd h (by simp)
  · rcases h₁ : fromHex r.short_code with - | w <;> simp only [h₁] at h
    · exact absurd h (by simp)
    · rcases h₂ : C.sm2Dec w with - | k <;> simp only [h₂] at h
      · exact absurd h (by simp)
      · rcases h₃ : fromHex r.content with - | b <;> simp only [h₃] at h
        · exact absurd h (by simp)
        · rcases h₄ : C.sm4Dec k b with - | c <;> simp only [h₄] at h
          · exact absurd h (by simp)
          · split at h
            · rename_i hsig
              have hct : c = t := Except.ok.inj h
              subst hct
              exact ⟨w, k, b, rfl, h₂, rfl, h₄, beq_iff_eq.mp hsig⟩
            · exact absurd h (by simp)

theorem resolveResult_singleton_after_create (C : Crypto) (s : Str)
    (h : Nat) (u : Option Str) (now : Nat) (key : Bytes) (newId : Str)
    (now' : Nat) (r' : LinkRecord) :
    resolveResult C ⟨[r']⟩ (generate_short_link C ⟨[]⟩ s h u now key newId).2
      now'
    = if rowMatches (extractDomain s) ((toHex (C.sm2Enc key)).take 8) r'
      then resolveRecord C r' now' else .error .notFound := by
  unfold generate_short_link
  simp only []
  rw [show (createdRecord C s h u now key newId).domain = extractDomain s
    from rfl]
  rw [resolveResult_eq_lookup C _ now' (slash_not_mem_extractDomain s)
    (slash_not_mem_code C key)]
  by_cases hm : rowMatches (extractDomain s) ((toHex (C.sm2Enc key)).take 8) r'
    = true
  · rw [List.find?_singleton, if_pos hm, if_pos hm]
  · rw [List.find?_singleton, if_neg hm, if_neg hm]

/-! The claims -/

/-- C1 (round trip): for every string s and validity window h > 0
hours, resolving the short address returned by creating s on a fresh
system returns exactly s, provided resolution happens strictly before
the stored expiry, which is the creation instant plus 3600 h seconds.
Holds for every lawful crypto context. -/
theorem c1_round_trip (C : Crypto) (hL : C.Lawful) (s : Str) (h : Nat)
    (_hpos : 0 < h) (u : Option Str) (now : Nat) (key : Bytes)
    (newId : Str) (now' : Nat) (hbefore : now' < now + 3600 * h) :
    resolveResult C (generate_short_link C ⟨[]⟩ s h u now key newId).1
      (generate_short_link C ⟨[]⟩ s h u now key newId).2 now' = .ok s := by
  rw [resolveResult_after_create, resolveRecord_createdRecord C hL]
  rw [if_neg (by omega)]

/-- Witness for C1 at a concrete input. -/
theorem c1_round_trip_witness :
    idCrypto.Lawful ∧ 0 < 1 ∧ 10 < 0 + 3600 * 1 ∧
    resolveResult idCrypto
      (generate_short_link idCrypto ⟨[]⟩ sW 1 none 0 keyW idW).1
      (generate_short_link idCrypto ⟨[]⟩ sW 1 none 0 keyW idW).2 10
      = .ok sW :=
  ⟨idCrypto_lawful, by decide, by decide,
    c1_round_trip idCrypto idCrypto_lawful sW 1 (by decide) none 0 keyW idW
      10 (by decide)⟩

/-- C2 counterexample: the claim says resolve at exactly createTime + h
(the stored expiry) fails with ExpiredError, but the source checks
`now > useful_time`, so resolution at exactly the expiry instant
succeeds and returns the URL. -/
theorem c2_expiry_counterexample :
    resolveResult idCrypto
      (generate_short_link idCrypto ⟨[]⟩ sW 1 none 0 keyW idW).1
      (generate_short_link idCrypto ⟨[]⟩ sW 1 none 0 keyW idW).2 3600
      = .ok sW
    ∧ (Except.ok sW : Except ResolveError Str) ≠ .error .expired := by
  exact ⟨by decide, by decide⟩

/-- C2 (amended, expiry boundary): resolution of a freshly created link
fails with ExpiredError exactly when it happens strictly after the
stored expiry createTime + 3600 h; at or before that instant (the
boundary included) it succeeds and returns the original URL. -/
theorem c2_expiry_boundary (C : Crypto) (hL : C.Lawful) (s : Str)
    (h : Nat) (u : Option Str) (now : Nat) (key : Bytes) (newId : Str)
    (now' : Nat) :
    resolveResult C (generate_short_link C ⟨[]⟩ s h u now key newId).1
      (generate_short_link C ⟨[]⟩ s h u now key newId).2 now'
    = if now + 3600 * h < now' then .error .expired else .ok s := by
  rw [resolveResult_after_create, resolveRecord_createdRecord C hL]

/-- Witness for C2 at a concrete input, one second past the expiry. -/
theorem c2_expiry_boundary_witness :
    idCrypto.Lawful ∧
    resolveResult idCrypto
      (generate_short_link idCrypto ⟨[]⟩ sW 1 none 0 keyW idW).1
      (generate_short_link idCrypto ⟨[]⟩ sW 1 none 0 keyW idW).2 3601
      = if 0 + 3600 * 1 < 3601 then .error .expired else .ok sW :=
  ⟨idCrypto_lawful,
    c2_expiry_boundary idCrypto idCrypto_lawful sW 1 none 0 keyW idW 3601⟩

/-- C3 counterexample: on the address a/b/c, which contains two
separators, splitting on the first separator would look up domain a and
code b/c and fail with NotFoundError on the empty store, but the source
unpacks `split('/')` into exactly two parts, so it fails with
MalformedAddressError instead. -/
theorem c3_split_counterexample :
    resolveFirstSplit idCrypto ⟨[]⟩ ("a/b/c".data) 0 = .error .notFound
    ∧ resolveResult idCrypto ⟨[]⟩ ("a/b/c".data) 0 = .error .malformed
    ∧ (Except.error ResolveError.notFound : Except ResolveError Str)
        ≠ .error .malformed := by
  exact ⟨by decide, by decide, by decide⟩

/-- C3 (amended, malformed addresses): resolve fails with
MalformedAddressError exactly when the address does not contain exactly
one separator — in particular for every input with no separator — and
this happens before any store lookup: the outcome is the same for every
store. -/
theorem c3_malformed_iff (C : Crypto) (st : SLState) (addr : Str)
    (now : Nat) :
    resolveResult C st addr now = .error .malformed
    ↔ addr.count '/' ≠ 1 := by
  have hlen := length_splitChar '/' addr
  unfold resolveResult resolve_short_link
  rcases hsp : splitChar '/' addr with - | ⟨d, - | ⟨c2, - | ⟨x, xs⟩⟩⟩
  · exact absurd hsp (splitChar_ne_nil '/' addr)
  · rw [hsp] at hlen
    simp only [hsp, List.length_cons, List.length_nil] at hlen ⊢
    constructor
    · intro _
      omega
    · intro _
      trivial
  · rw [hsp] at hlen
    simp only [hsp, List.length_cons, List.length_nil] at hlen ⊢
    have hne : (match st.records.find? (fun r => rowMatches d c2 r) with
        | none => (.error .notFound : Except ResolveError Str)
        | some r => resolveRecord C r now) ≠ .error .malformed := by
      rcases st.records.find? (fun r => rowMatches d c2 r) with - | r
      · simp
      · exact resolveRecord_ne_malformed C r now
    constructor
    · intro hA
      exact absurd hA hne
    · intro hc
      exact absurd (by omega : addr.count '/' = 1) hc
  · rw [hsp] at hlen
    simp only [hsp, List.length_cons] at hlen ⊢
    constructor
    · intro _
      omega
    · intro _
      trivial

/-- C4 counterexample: the stored short code ab is matched by the
resolved code AB through SQLite LIKE, which is ASCII-case-insensitive,
so resolution of a/AB succeeds; under the claimed literal,
case-sensitive prefix lookup the same call would fail with
NotFoundError. -/
theorem c4_lookup_counterexample :
    resolveResult idCrypto
      (generate_short_link idCrypto ⟨[]⟩ sW 1 none 0 keyW idW).1
      ("a/AB".data) 0 = .ok sW
    ∧ resolveLiteralLookup idCrypto
        (generate_short_link idCrypto ⟨[]⟩ sW 1 none 0 keyW idW).1
        ("a/AB".data) 0 = .error .notFound := by
  exact ⟨by decide, by decide⟩

/-- C4 (amended, lookup semantics): for a well-formed address the
outcome of resolve is determined by the first stored row whose domain
equals the given domain exactly and whose stored short code matches the
given code followed by a percent sign under SQLite LIKE — that is,
ASCII-case-insensitive matching in which percent and underscore in the
given code act as wildcards; with no such row it fails with
NotFoundError, and the first matching row is used without further
disambiguation. -/
theorem c4_lookup_semantics (C : Crypto) (st : SLState) (now' : Nat)
    {d code : Str} (hd : '/' ∉ d) (hc : '/' ∉ code) :
    resolveResult C st (d ++ '/' :: code) now'
    = match st.records.find? (fun r => rowMatches d code r) with
      | none => .error .notFound
      | some r => resolveRecord C r now' :=
  resolveResult_eq_lookup C st now' hd hc

/-- Witness for C4 at a concrete input. -/
theorem c4_lookup_semantics_witness :
    ('/' ∉ ("a".data : Str)) ∧ ('/' ∉ ("AB".data : Str)) ∧
    resolveResult idCrypto
      (generate_short_link idCrypto ⟨[]⟩ sW 1 none 0 keyW idW).1
      (("a".data : Str) ++ '/' :: ("AB".data : Str)) 0
    = match (generate_short_link idCrypto ⟨[]⟩ sW 1 none 0 keyW
        idW).1.records.find?
        (fun r => rowMatches ("a".data) ("AB".data) r) with
      | none => .error .notFound
      | some r => resolveRecord idCrypto r 0 :=
  ⟨by decide, by decide,
    c4_lookup_semantics idCrypto _ 0 (by decide) (by decide)⟩

/-- C5 (canonical signing): the signature of a field mapping depends
only on the set of bindings, not on insertion order: for association
lists with distinct field names, signing a permutation yields the same
digest; in particular signing the same field set twice is
deterministic. -/
theorem c5_sign_canonical (C : Crypto) {l₁ l₂ : List (Str × Str)}
    (hperm : l₁.Perm l₂) (hnd : (l₁.map Prod.fst).Nodup) :
    generateSign C l₁ = generateSign C l₂ := by
  unfold generateSign
  rw [sortStrs_eq_of_perm (hperm.map Prod.fst)]
  have hfun : (fun k => k ++ assocGet l₁ k) = fun k => k ++ assocGet l₂ k :=
    funext fun k => by rw [assocGet_of_perm hperm hnd k]
  rw [hfun]

/-- Witness for C5 at a concrete pair of permuted field lists. -/
theorem c5_sign_canonical_witness :
    ([(kDomain, ("a".data : Str)), (kContent, ("b".data : Str))]).Perm
      [(kContent, ("b".data : Str)), (kDomain, ("a".data : Str))] ∧
    generateSign idCrypto [(kDomain, ("a".data : Str)), (kContent, ("b".data : Str))]
      = generateSign idCrypto
          [(kContent, ("b".data : Str)), (kDomain, ("a".data : Str))] :=
  ⟨by decide,
    c5_sign_canonical idCrypto (by decide) (by decide)⟩

/-- C6 (short address format): every successful create call returns the
extracted domain, a separator, and exactly the first 8 characters of
the hex encoding of the wrapped key as stored in the short_code column;
that encoding consists of lowercase hex characters only, and whenever
the wrapped key is at least 4 bytes long (every real SM2 ciphertext is)
the code is exactly 8 characters. -/
theorem c6_short_address_format (C : Crypto) (st : SLState) (s : Str)
    (h : Nat) (u : Option Str) (now : Nat) (key : Bytes) (newId : Str) :
    (generate_short_link C st s h u now key newId).2
      = extractDomain s ++ '/'
          :: ((createdRecord C s h u now key newId).short_code).take 8
    ∧ (createdRecord C s h u now key newId).short_code
        = toHex (C.sm2Enc key)
    ∧ (∀ c ∈ toHex (C.sm2Enc key), isLowerHex c = true)
    ∧ (4 ≤ (C.sm2Enc key).length →
        (((createdRecord C s h u now key newId).short_code).take 8).length
          = 8) := by
  refine ⟨rfl, rfl, fun c hc => mem_toHex_isLowerHex hc, fun hlen => ?_⟩
  show ((toHex (C.sm2Enc key)).take 8).length = 8
  rw [List.length_take, length_toHex]
  omega

/-- Witness for C6 at a concrete input. -/
theorem c6_short_address_format_witness :
    (generate_short_link idCrypto ⟨[]⟩ sW 1 none 0 keyW idW).2
      = extractDomain sW ++ '/'
          :: ((createdRecord idCrypto sW 1 none 0 keyW idW).short_code).take 8
    ∧ (∀ c ∈ toHex (idCrypto.sm2Enc keyW), isLowerHex c = true) :=
  ⟨(c6_short_address_format idCrypto ⟨[]⟩ sW 1 none 0 keyW idW).1,
   (c6_short_address_format idCrypto ⟨[]⟩ sW 1 none 0 keyW idW).2.2.1⟩

/-- C7 (signature verification inputs): once a row has been fetched and
the expiry, key-unwrap and content-decryption stages have passed, the
outcome of resolve is decided by recomputing the digest over exactly the
canonical field set domain, decrypted content, stored createTime, and
unwrapped key as hex — the decrypted plaintext values, not the stored
ciphertext — and comparing it with the stored signature; a mismatch
fails with IntegrityError. -/
theorem c7_signature_inputs (C : Crypto) (st : SLState) (addr : Str)
    (now : Nat) {d code : Str} {r : LinkRecord} {w k b : Bytes} {c : Str}
    (hsplit : splitChar '/' addr = [d, code])
    (hfind : st.records.find? (fun rr => rowMatches d code rr) = some r)
    (hexp : ¬ now > r.useful_time)
    (hw : fromHex r.short_code = some w)
    (hk : C.sm2Dec w = some k)
    (hb : fromHex r.content = some b)
    (hc : C.sm4Dec k b = some c) :
    resolveResult C st addr now
    = if C.md5 (canonString r.domain c r.create_time (toHex k)) = r.sign
      then .ok c else .error .badSign := by
  unfold resolveResult resolve_short_link
  rw [hsplit]
  simp only [hfind]
  unfold resolveRecord
  rw [if_neg hexp]
  simp only [hw, hk, hb, hc]
  rw [generateSign_signParams]
  by_cases hs : C.md5 (canonString r.domain c r.create_time (toHex k))
    = r.sign
  · rw [hs]
    simp
  · rw [if_neg hs, if_neg (by simpa using hs)]

/-- Witness for C7 at a concrete input whose stored signature has been
cleared, exercising the IntegrityError branch. -/
theorem c7_signature_inputs_witness :
    splitChar '/' linkW = [("a".data : Str), ("ab".data : Str)] ∧
    (SLState.mk [recBadSign]).records.find?
      (fun rr => rowMatches ("a".data) ("ab".data) rr) = some recBadSign ∧
    resolveResult idCrypto ⟨[recBadSign]⟩ linkW 5
    = if idCrypto.md5 (canonString recBadSign.domain sW
          recBadSign.create_time (toHex keyW)) = recBadSign.sign
      then .ok sW else .error .badSign :=
  ⟨by decide, by decide,
    @c7_signature_inputs idCrypto ⟨[recBadSign]⟩ linkW 5 ("a".data)
      ("ab".data) recBadSign keyW keyW (encodeStr sW) sW (by decide)
      (by decide) (by decide) (by decide) (by decide) (by decide)
      (by decide)⟩

/-- C8 counterexample: mutating the domainKey column (the plaintext key
copy) does not make resolve fail at all — the column is never read at
resolution — so the mutation is not detected by IntegrityError or a
decrypt error: resolve still succeeds, returning the original URL. -/
theorem c8_tamper_counterexample :
    resolveResult idCrypto ⟨[{recW with domainKey := "x".data}]⟩ linkW 5
      = .ok sW
    ∧ (Except.ok sW : Except ResolveError Str) ≠ .error .badSign
    ∧ (Except.ok sW : Except ResolveError Str) ≠ .error .sm2Fail
    ∧ (Except.ok sW : Except ResolveError Str) ≠ .error .sm4Fail := by
  exact ⟨by decide, by decide, by decide, by decide⟩

/-- C8 (amended, tamper safety): mutating any single one of the columns
content, short_code (the wrapped key), domainKey (the plaintext key
copy), create_time, or sign of a freshly created row never makes
resolution of its short address return a wrong answer: whenever
resolution succeeds, the value returned is exactly the original URL.
(Some mutations are not detected at all — the domainKey column is never
read — and a mutation of the wrapped key can also surface as
NotFoundError because the looked-up prefix changes.)  Assumes the digest
is collision-free. -/
theorem c8_tamper_never_wrong (C : Crypto) (hL : C.Lawful)
    (hInj : Function.Injective C.md5) (s : Str) (h : Nat) (u : Option Str)
    (now : Nat) (key : Bytes) (newId : Str) (now' : Nat) (r' : LinkRecord)
    (hT : IsTamper (createdRecord C s h u now key newId) r') (t : Str)
    (hres : resolveResult C ⟨[r']⟩
      (generate_short_link C ⟨[]⟩ s h u now key newId).2 now' = .ok t) :
    t = s := by
  rw [resolveResult_singleton_after_create] at hres
  by_cases hm : rowMatches (extractDomain s) ((toHex (C.sm2Enc key)).take 8)
      r' = true
  swap
  · rw [if_neg hm] at hres
    exact absurd hres (by simp)
  rw [if_pos hm] at hres
  obtain ⟨w, k, b, hw, hk, hb, hdec, hsig⟩ := resolveRecord_ok_inversion hres
  rcases hT with ⟨v, rfl⟩ | ⟨v, rfl⟩ | ⟨v, rfl⟩ | ⟨n, rfl⟩ | ⟨v, rfl⟩
  · -- content mutated: the unwrapped key is still the original key
    have hw' : fromHex (toHex (C.sm2Enc key)) = some w := hw
    rw [fromHex_toHex] at hw'
    obtain rfl : C.sm2Enc key = w := Option.some.inj hw'
    have hk' : C.sm2Dec (C.sm2Enc key) = some k := hk
    rw [hL.sm2_roundtrip] at hk'
    obtain rfl : key = k := Option.some.inj hk'
    have hsig' : generateSign C (signParams (extractDomain s) t now
          (toHex key))
        = generateSign C (signParams (extractDomain s) s now (toHex key)) :=
      hsig
    rw [generateSign_signParams, generateSign_signParams] at hsig'
    have hcanon := hInj hsig'
    rw [canonString_eq_mid, canonString_eq_mid] at hcanon
    have h1 := List.append_cancel_left hcanon
    have h2 := List.append_cancel_right h1
    exact List.append_cancel_right h2
  · -- wrapped key mutated: sandwich the canonical string
    have hb' : fromHex (toHex (C.sm4Enc key s)) = some b := hb
    rw [fromHex_toHex] at hb'
    obtain rfl : C.sm4Enc key s = b := Option.some.inj hb'
    have hsig' : generateSign C (signParams (extractDomain s) t now
          (toHex k))
        = generateSign C (signParams (extractDomain s) s now (toHex key)) :=
      hsig
    rw [generateSign_signParams, generateSign_signParams] at hsig'
    have hcanon := hInj hsig'
    rw [canonString_eq_mid, canonString_eq_mid] at hcanon
    have h1 := List.append_cancel_left hcanon
    exact (sandwich ⟨'y', canonMid_getLast? (extractDomain s) now,
      by decide⟩ (fun ch hch => mem_toHex_isLowerHex hch)
      (fun ch hch => mem_toHex_isLowerHex hch) h1).1
  · -- plaintext key copy mutated: the pipeline is unchanged
    have hw' : fromHex (toHex (C.sm2Enc key)) = some w := hw
    rw [fromHex_toHex] at hw'
    obtain rfl : C.sm2Enc key = w := Option.some.inj hw'
    have hk' : C.sm2Dec (C.sm2Enc key) = some k := hk
    rw [hL.sm2_roundtrip] at hk'
    obtain rfl : key = k := Option.some.inj hk'
    have hb' : fromHex (toHex (C.sm4Enc key s)) = some b := hb
    rw [fromHex_toHex] at hb'
    obtain rfl : C.sm4Enc key s = b := Option.some.inj hb'
    have hdec' : C.sm4Dec key (C.sm4Enc key s) = some t := hdec
    rw [hL.sm4_roundtrip] at hdec'
    exact (Option.some.inj hdec').symm
  · -- createTime mutated: the pipeline is unchanged
    have hw' : fromHex (toHex (C.sm2Enc key)) = some w := hw
    rw [fromHex_toHex] at hw'
    obtain rfl : C.sm2Enc key = w := Option.some.inj hw'
    have hk' : C.sm2Dec (C.sm2Enc key) = some k := hk
    rw [hL.sm2_roundtrip] at hk'
    obtain rfl : key = k := Option.some.inj hk'
    have hb' : fromHex (toHex (C.sm4Enc key s)) = some b := hb
    rw [fromHex_toHex] at hb'
    obtain rfl : C.sm4Enc key s = b := Option.some.inj hb'
    have hdec' : C.sm4Dec key (C.sm4Enc key s) = some t := hdec
    rw [hL.sm4_roundtrip] at hdec'
    exact (Option.some.inj hdec').symm
  · -- signature mutated: the pipeline is unchanged
    have hw' : fromHex (toHex (C.sm2Enc key)) = some w := hw
    rw [fromHex_toHex] at hw'
    obtain rfl : C.sm2Enc key = w := Option.some.inj hw'
    have hk' : C.sm2Dec (C.sm2Enc key) = some k := hk
    rw [hL.sm2_roundtrip] at hk'
    obtain rfl : key = k := Option.some.inj hk'
    have hb' : fromHex (toHex (C.sm4Enc key s)) = some b := hb
    rw [fromHex_toHex] at hb'
    obtain rfl : C.sm4Enc key s = b := Option.some.inj hb'
    have hdec' : C.sm4Dec key (C.sm4Enc key s) = some t := hdec
    rw [hL.sm4_roundtrip] at hdec'
    exact (Option.some.inj hdec').symm

/-- Witness for C8: the domainKey mutation, on which resolution succeeds
with the original URL. -/
theorem c8_tamper_never_wrong_witness :
    idCrypto.Lawful ∧ sW = sW :=
  ⟨idCrypto_lawful,
    c8_tamper_never_wrong idCrypto idCrypto_lawful idCrypto_md5_injective
      sW 1 none 0 keyW idW 5 {recW with domainKey := "x".data}
      (Or.inr (Or.inr (Or.inl ⟨"x".data, rfl⟩))) sW (by decide)⟩

/-- C9 (frame): create appends exactly one new row to the table and
modifies no existing row; the created row starts with use count 0; and
resolve returns the store unchanged — it only reads.  No operation
deletes a record. -/
theorem c9_store_frame (C : Crypto) (st : SLState) (s : Str) (h : Nat)
    (u : Option Str) (now : Nat) (key : Bytes) (newId : Str)
    (addr : Str) (now' : Nat) :
    (generate_short_link C st s h u now key newId).1.records
      = st.records ++ [createdRecord C s h u now key newId]
    ∧ (createdRecord C s h u now key newId).user_times = 0
    ∧ (resolve_short_link C st addr now').1 = st :=
  ⟨rfl, rfl, rfl⟩

/-- C10 (noninterference): the outcome of resolve — returned URL or
raised error — does not depend on the domainKey, publicKey or privateKey
columns: two stores whose rows agree on every other column produce
identical resolve outcomes. -/
theorem c10_key_columns_noninterference (C : Crypto) {st₁ st₂ : SLState}
    (hv : List.Forall₂ sameVisible st₁.records st₂.records)
    (addr : Str) (now : Nat) :
    resolveResult C st₁ addr now = resolveResult C st₂ addr now := by
  unfold resolveResult resolve_short_link
  rcases hsp : splitChar '/' addr with - | ⟨d, - | ⟨c2, - | ⟨x, xs⟩⟩⟩
  · rfl
  · rfl
  · simp only
    exact lookup_congr C d c2 now hv
  · rfl

/-- Witness for C10: a store whose single row has all three key-material
columns blanked resolves identically to the original. -/
theorem c10_key_columns_noninterference_witness :
    List.Forall₂ sameVisible [recW]
      [{recW with domainKey := [], publicKey := [], privateKey := []}] ∧
    resolveResult idCrypto ⟨[recW]⟩ linkW 5
      = resolveResult idCrypto
          ⟨[{recW with domainKey := [], publicKey := [], privateKey := []}]⟩
          linkW 5 := by
  have hv : List.Forall₂ sameVisible [recW]
      [{recW with domainKey := [], publicKey := [], privateKey := []}] :=
    List.Forall₂.cons
      ⟨rfl, rfl, rfl, rfl, rfl, rfl, rfl, rfl, rfl, rfl⟩
      List.Forall₂.nil
  exact ⟨hv, c10_key_columns_noninterference idCrypto hv linkW 5⟩

end ShortLink
